import Mathlib

/-!
Verification development for the `fontloader-egui` repository
(`src/main.rs`).  The pure core of the program is shallowly embedded:

* Rust string slices are modelled as `List Char`; Rust byte indexing is
  modelled explicitly (`utf8Len`, `byteLen`, `dropBytes`, `byteFind`), and
  an indexing operation that would panic in Rust (out-of-range byte index
  or an index that is not a character boundary) is modelled by `Option`
  with `none` standing for the panic.
* Font binaries are modelled as `List Nat` (one `Nat` per byte, reduced
  `% 256` at every read).
* The OS calls (`AddFontResourceW`, `RemoveFontResourceW`) and the file
  system (`fs::metadata`, `fs::read`) are modelled as oracle functions
  passed to the embedded workers.

`HashSet` iteration is modelled by lists in insertion order; `HashSet`
insertion is `insertIfAbsent`.  Rust `to_lowercase` is modelled on the
ASCII range (all inputs exercised by the theorems are ASCII).
-/

abbrev Str := List Char

def chars (s : String) : Str := s.toList

/-- UTF-8 encoded length of one character (1, 2, 3 or 4 bytes). -/
def utf8Len (c : Char) : Nat :=
  if c.toNat < 0x80 then 1
  else if c.toNat < 0x800 then 2
  else if c.toNat < 0x10000 then 3
  else 4

/-- UTF-8 byte length of a string, as Rust's `str::len`. -/
def byteLen (s : Str) : Nat := (s.map utf8Len).sum

/-- Rust `char::is_whitespace` (the Unicode `White_Space` property). -/
def rustIsWhitespace (c : Char) : Bool :=
  let n := c.toNat
  (9 ≤ n && n ≤ 13) || n == 32 || n == 0x85 || n == 0xA0 || n == 0x1680 ||
  (0x2000 ≤ n && n ≤ 0x200A) || n == 0x2028 || n == 0x2029 ||
  n == 0x202F || n == 0x205F || n == 0x3000

/-- ASCII lower-casing; stands in for Rust `str::to_lowercase`, which the
program only ever applies to ASCII keywords and names compared against
ASCII literals. -/
def asciiToLower (c : Char) : Char :=
  if 'A' ≤ c && c ≤ 'Z' then Char.ofNat (c.toNat + 32) else c

def toLowerL (s : Str) : Str := s.map asciiToLower

/-- Rust `str::trim`. -/
def rustTrim (s : Str) : Str :=
  ((s.dropWhile rustIsWhitespace).reverse.dropWhile rustIsWhitespace).reverse

/-- Rust `str::trim_start`. -/
def trimStartL (s : Str) : Str := s.dropWhile rustIsWhitespace

/-- Rust `str::trim_matches(c)`: strip every leading and trailing `c`. -/
def trimCharL (c : Char) (s : Str) : Str :=
  ((s.dropWhile (· = c)).reverse.dropWhile (· = c)).reverse

/-- Rust byte slicing `&s[n..]`: `none` models the panic when `n` is out
of range or not a character boundary. -/
def dropBytes : Nat → Str → Option Str
  | 0, s => some s
  | _ + 1, [] => none
  | n + 1, c :: t =>
    if utf8Len c ≤ n + 1 then dropBytes (n + 1 - utf8Len c) t else none

/-- Rust `str::find(sub)`: byte offset of the first occurrence.  All
needles used by the program start with an ASCII byte, so every byte-level
match is character aligned and this char-level scan is faithful. -/
def byteFind (needle : Str) : Str → Option Nat
  | [] => if needle.isEmpty then some 0 else none
  | c :: t =>
    if needle.isPrefixOf (c :: t) then some 0
    else (byteFind needle t).map (· + utf8Len c)

/-- Rust `str::contains(sub)`. -/
def containsSub (needle : Str) : Str → Bool
  | [] => needle.isEmpty
  | c :: t => needle.isPrefixOf (c :: t) || containsSub needle t

/-- Strip one trailing carriage return, as Rust's `str::lines` does. -/
def stripCR (l : Str) : Str :=
  if l.getLast? = some '\r' then l.dropLast else l

def linesAux : Str → Str → List Str
  | [], acc => if acc.isEmpty then [] else [stripCR acc.reverse]
  | c :: t, acc =>
    if c = '\n' then stripCR acc.reverse :: linesAux t []
    else linesAux t (c :: acc)

/-- Rust `str::lines`. -/
def rustLines (s : Str) : List Str := linesAux s []

/-- `HashSet::insert`, with iteration order fixed to insertion order. -/
def insertIfAbsent (x : Str) (l : List Str) : List Str :=
  if x ∈ l then l else l ++ [x]

/-! ### Subtitle parsing (`main.rs` lines 622-744) -/

/-- `normalize_font_name` (main.rs:734): trim whitespace, strip leading
and trailing NULs, drop one leading `@`, reject the empty result. -/
def normalize_font_name (name : Str) : Option Str :=
  let s1 := trimCharL (Char.ofNat 0) (rustTrim name)
  let s2 := if s1.head? = some '@' then s1.tail else s1
  if s2.isEmpty then none else some s2

/-- `parse_format` (main.rs:661): `line[start..]` trimmed, split on `,`,
each field trimmed and lower-cased.  `none` models the slicing panic. -/
def parse_format (line : Str) (start : Nat) : Option (List Str) :=
  (dropBytes start line).map fun rest =>
    (List.splitOn ',' (rustTrim rest)).map fun v => toLowerL (rustTrim v)

/-- `parse_style_font` (main.rs:669): `line[6..]` trimmed, split on `,`,
field `idx` (default 1) normalized.  The outer `Option` models the
slicing panic; the inner one is the Rust return value. -/
def parse_style_font (line : Str) (idx : Option Nat) : Option (Option Str) :=
  (dropBytes 6 line).map fun rest =>
    let parts := List.splitOn ',' (rustTrim rest)
    (parts[idx.getD 1]?).bind normalize_font_name

/-- The comma-counting scan of `extract_event_text` (main.rs:683-693):
return the suffix after the comma at which `count` reaches `index`,
or the empty string when the scan runs out of commas. -/
def eventScan (index : Nat) : Nat → Str → Str
  | _, [] => []
  | count, c :: t =>
    if c = ',' then (if count = index then t else eventScan index (count + 1) t)
    else eventScan index count t

/-- `extract_event_text` (main.rs:680): `line[9..]` trimmed, then the
comma scan with `idx.unwrap_or(9)`.  The Rust function always returns
`Some`, so the `Option` here models only the `line[9..]` slicing panic. -/
def extract_event_text (line : Str) (idx : Option Nat) : Option Str :=
  (dropBytes 9 line).map fun rest => eventScan (idx.getD 9) 0 (rustTrim rest)

def pushNorm (name : Str) (acc : List Str) : List Str :=
  match normalize_font_name name with
  | some nm => nm :: acc
  | none => acc

/-- The `while let Some(pos) = text[start..].find("\\fn")` loop of
`parse_fn_tags` (main.rs:701).  The fuel argument only bounds recursion
for Lean: every iteration advances `start` by at least 3 bytes and
recursion requires `start ≤ byteLen text`, so fuel `byteLen text + 1`
is never exhausted.  `none` models the byte-slicing panics (`&text[start..]`
may land inside a multi-byte character because `start` is computed from
offsets into the `trim_start`-ed slice). -/
def fnLoop (text : Str) : Nat → Nat → List Str → Option (List Str)
  | 0, _, _ => none
  | fuel + 1, start, acc =>
    match dropBytes start text with
    | none => none
    | some rem =>
      match byteFind (chars "\\fn") rem with
      | none => some acc.reverse
      | some pos =>
        let idx := start + pos + 3
        match dropBytes idx text with
        | none => none
        | some s0 =>
          let s := trimStartL s0
          match (if s.head? = some '(' then byteFind [')'] s.tail else none) with
          | some endP =>
            let name := (s.tail).takeWhile (· ≠ ')')
            fnLoop text fuel (idx + 1 + endP + 1) (pushNorm name acc)
          | none =>
            let name := s.takeWhile fun c => c ≠ '\\' && c ≠ '}'
            fnLoop text fuel (idx + byteLen name) (pushNorm name acc)

/-- `parse_fn_tags` (main.rs:701): collect the normalized names of every
inline `\fn` override in `text`. -/
def parse_fn_tags (text : Str) : Option (List Str) :=
  fnLoop text (byteLen text + 1) 0 []

structure AssState where
  sec : Str
  styleIdx : Option Nat
  eventIdx : Option Nat
  fonts : List Str
  deriving DecidableEq, Repr

/-- One iteration of the line loop of `parse_ass_fonts` (main.rs:628-655). -/
def assStep (st : AssState) (raw : Str) : Option AssState :=
  let line := rustTrim raw
  if line.head? = some '[' ∧ line.getLast? = some ']' then
    some { st with sec := toLowerL ((line.drop 1).dropLast) }
  else
    let lower := toLowerL line
    if containsSub (chars "styles") st.sec then
      if (chars "format:").isPrefixOf lower then
        (parse_format line 7).map fun fmt =>
          { st with styleIdx := fmt.findIdx? (· == chars "fontname") }
      else if (chars "style:").isPrefixOf lower then
        (parse_style_font line st.styleIdx).map fun res =>
          match res with
          | some f => { st with fonts := insertIfAbsent f st.fonts }
          | none => st
      else some st
    else if containsSub (chars "events") st.sec then
      if (chars "format:").isPrefixOf lower then
        (parse_format line 7).map fun fmt =>
          { st with eventIdx := fmt.findIdx? (· == chars "text") }
      else if (chars "dialogue:").isPrefixOf lower ||
              (chars "comment:").isPrefixOf lower then
        (extract_event_text line st.eventIdx).bind fun text =>
          (parse_fn_tags text).map fun names =>
            { st with fonts := names.foldl (fun fs n => insertIfAbsent n fs) st.fonts }
      else some st
    else some st

/-- `parse_ass_fonts` (main.rs:622): the required-name set of one
subtitle text, in insertion order.  `none` models a panic on some line. -/
def parse_ass_fonts (text : Str) : Option (List Str) :=
  ((rustLines text).foldlM assStep ⟨[], none, none, []⟩).map (·.fonts)

/-! ### Font binary parsing (`main.rs` lines 746-877) -/

/-- `read_u16_be` (main.rs:858).  Bytes are `Nat`s reduced `% 256`. -/
def read_u16_be (data : List Nat) (off : Nat) : Option Nat :=
  if data.length < off + 2 then none
  else some ((data.getD off 0 % 256) * 256 + data.getD (off + 1) 0 % 256)

/-- `read_u32_be` (main.rs:866). -/
def read_u32_be (data : List Nat) (off : Nat) : Option Nat :=
  if data.length < off + 4 then none
  else some ((data.getD off 0 % 256) * 0x1000000 + (data.getD (off + 1) 0 % 256) * 0x10000 +
    (data.getD (off + 2) 0 % 256) * 256 + data.getD (off + 3) 0 % 256)

/-- Rust byte-buffer slicing `&data[a..b]`; `none` models the panic when
the range is invalid. -/
def byteSliceB (data : List Nat) (a b : Nat) : Option (List Nat) :=
  if a ≤ b ∧ b ≤ data.length then some (((data.drop a).take (b - a)).map (· % 256))
  else none

/-- Pair up big-endian UTF-16 code units, dropping a trailing odd byte,
as `decode_utf16be`'s `while i + 1 < data.len()` loop (main.rs:848). -/
def groupU16 : List Nat → List Nat
  | b0 :: b1 :: t => ((b0 % 256) * 256 + b1 % 256) :: groupU16 t
  | _ => []

/-- `String::from_utf16_lossy`: combine surrogate pairs, replace unpaired
surrogates with U+FFFD. -/
def utf16Lossy : List Nat → Str
  | [] => []
  | [u] =>
    if 0xD800 ≤ u ∧ u ≤ 0xDFFF then [Char.ofNat 0xFFFD] else [Char.ofNat u]
  | u :: v :: t =>
    if 0xD800 ≤ u ∧ u ≤ 0xDBFF then
      if 0xDC00 ≤ v ∧ v ≤ 0xDFFF then
        Char.ofNat (0x10000 + (u - 0xD800) * 0x400 + (v - 0xDC00)) :: utf16Lossy t
      else Char.ofNat 0xFFFD :: utf16Lossy (v :: t)
    else if 0xDC00 ≤ u ∧ u ≤ 0xDFFF then Char.ofNat 0xFFFD :: utf16Lossy (v :: t)
    else Char.ofNat u :: utf16Lossy (v :: t)

/-- `decode_utf16be` (main.rs:848). -/
def decode_utf16be (data : List Nat) : Str := utf16Lossy (groupU16 data)

/-- `parse_ttc_offsets` (main.rs:773): the per-font offsets of a font
collection; a failing bounds-checked read is skipped (`if let Some`). -/
def parse_ttc_offsets (data : List Nat) : List Nat :=
  if data.length < 12 then []
  else
    let numFonts := (read_u32_be data 8).getD 0
    (List.range numFonts).filterMap fun i => read_u32_be data (12 + 4 * i)

/-- The table-directory scan of `parse_otf_names_at` (main.rs:796-807):
find the `name` table record among `n` remaining records starting at
record index `i`.  Outer `Option` = panic (proved impossible below),
inner `Option` = table found. -/
def findNameTable (data : List Nat) (tableStart : Nat) : Nat → Nat → Option (Option (Nat × Nat))
  | _, 0 => some none
  | i, n + 1 =>
    let recPos := tableStart + i * 16
    if data.length < recPos + 16 then some none
    else
      match byteSliceB data recPos (recPos + 4) with
      | none => none
      | some tag =>
        if tag = [110, 97, 109, 101] then
          some (some ((read_u32_be data (recPos + 8)).getD 0, (read_u32_be data (recPos + 12)).getD 0))
        else findNameTable data tableStart (i + 1) n

/-- The name-record scan of `parse_otf_names_at` (main.rs:820-844):
platform 3, name id 1 or 4, non-empty in-bounds string ranges decoded as
UTF-16BE and normalized into the accumulator set. -/
def collectNames (data : List Nat) (tablePos stringOffset recordsStart : Nat) :
    Nat → Nat → List Str → Option (List Str)
  | _, 0, acc => some acc
  | i, n + 1, acc =>
    let recPos := recordsStart + i * 12
    if data.length < recPos + 12 then some acc
    else
      let platform := (read_u16_be data recPos).getD 0
      let nameId := (read_u16_be data (recPos + 6)).getD 0
      let len := (read_u16_be data (recPos + 8)).getD 0
      let offStr := (read_u16_be data (recPos + 10)).getD 0
      if platform ≠ 3 then collectNames data tablePos stringOffset recordsStart (i + 1) n acc
      else if nameId ≠ 1 ∧ nameId ≠ 4 then
        collectNames data tablePos stringOffset recordsStart (i + 1) n acc
      else
        let strStart := tablePos + stringOffset + offStr
        let strEnd := strStart + len
        if data.length < strEnd ∨ len = 0 then
          collectNames data tablePos stringOffset recordsStart (i + 1) n acc
        else
          match byteSliceB data strStart strEnd with
          | none => none
          | some bytes =>
            match normalize_font_name (decode_utf16be bytes) with
            | some nm =>
              collectNames data tablePos stringOffset recordsStart (i + 1) n (insertIfAbsent nm acc)
            | none => collectNames data tablePos stringOffset recordsStart (i + 1) n acc

/-- `parse_otf_names_at` (main.rs:789): names declared by the font whose
directory starts at `offset`.  `none` models a panic (proved impossible). -/
def parse_otf_names_at (data : List Nat) (offset : Nat) : Option (List Str) :=
  if data.length < offset + 12 then some []
  else
    let numTables := (read_u16_be data (offset + 4)).getD 0
    match findNameTable data (offset + 12) 0 numTables with
    | none => none
    | some none => some []
    | some (some (tOff, tLen)) =>
      let tablePos := offset + tOff
      if data.length < tablePos + tLen ∨ data.length < tablePos + 6 then some []
      else
        let count := (read_u16_be data (tablePos + 2)).getD 0
        let stringOffset := (read_u16_be data (tablePos + 4)).getD 0
        collectNames data tablePos stringOffset (tablePos + 6) 0 count []

/-- `parse_font_names_from_bytes` (main.rs:754): dispatch on the `ttcf`
collection signature; union the per-font name sets. -/
def parse_font_names_from_bytes (data : List Nat) : Option (List Str) :=
  if data.length < 4 then some []
  else
    match byteSliceB data 0 4 with
    | none => none
    | some tag =>
      if tag = [116, 116, 99, 102] then
        (parse_ttc_offsets data).foldlM
          (fun acc off => (parse_otf_names_at data off).map
            (fun ns => ns.foldl (fun a n => insertIfAbsent n a) acc)) []
      else parse_otf_names_at data 0

/-! ### Match & registry orchestration (`main.rs` lines 450-518, 538-581)

The OS activation and deactivation calls are modelled by boolean oracles
`act` and `deact`; the filesystem is modelled by the oracles `mtime`
(for `metadata_mtime`, main.rs:583, whose body is pure IO) and
`parseNames` (for `parse_font_names`, main.rs:746, which reads the file
and calls `parse_font_names_from_bytes`).  Paths are modelled as `Str`.
-/

structure ProcState where
  reg : List Str
  loaded : Nat
  failed : Nat
  missing : Nat
  dups : Nat
  logs : List Str
  calls : List Str
  deriving DecidableEq, Repr

/-- One iteration of the required-font loop of `process_drop_worker`
(main.rs:460-484).  `calls` records every invocation of the external
activation call `add_font_resource`, in order. -/
def processOne (index : List (Str × List Str)) (act : Str → Bool)
    (st : ProcState) (font : Str) : ProcState :=
  let key := toLowerL font
  match List.lookup key index with
  | some files =>
    match files.head? with
    | some path =>
      if path ∈ st.reg then
        { st with dups := st.dups + 1,
                  logs := st.logs ++ [chars "[^] " ++ font ++ chars " > " ++ path] }
      else if act path then
        { st with reg := path :: st.reg, loaded := st.loaded + 1,
                  logs := st.logs ++ [chars "[ok] " ++ font ++ chars " > " ++ path],
                  calls := st.calls ++ [path] }
      else
        { st with failed := st.failed + 1,
                  logs := st.logs ++ [chars "[X] " ++ font ++ chars " > " ++ path],
                  calls := st.calls ++ [path] }
    | none =>
      { st with missing := st.missing + 1, logs := st.logs ++ [chars "[??] " ++ font] }
  | none =>
    { st with missing := st.missing + 1, logs := st.logs ++ [chars "[??] " ++ font] }

/-- The classification loop of `process_drop_worker` (main.rs:459-484)
over the (deduplicated) required-name set, in iteration order. -/
def process_drop_worker (index : List (Str × List Str)) (act : Str → Bool)
    (fonts : List Str) (st : ProcState) : ProcState :=
  fonts.foldl (processOne index act) st

structure UnloadOut where
  count : Nat
  reg : List Str
  attempts : List Str
  deriving DecidableEq, Repr

/-- The first loop of `unload_fonts_worker` (main.rs:505-510): count the
successful deactivations and collect the removed paths. -/
def unloadScan (deact : Str → Bool) (reg : List Str) : Nat × List Str :=
  reg.foldl (fun acc p => if deact p then (acc.1 + 1, acc.2 ++ [p]) else acc) (0, [])

/-- `unload_fonts_worker` (main.rs:501): attempt deactivation for every
registry member, remove exactly the successes.  `attempts` records the
deactivation calls made (one per member, in iteration order). -/
def unload_fonts_worker (deact : Str → Bool) (reg : List Str) : UnloadOut :=
  let scan := unloadScan deact reg
  { count := scan.1, reg := reg.filter (fun p => !(scan.2.contains p)), attempts := reg }

structure CacheEntryM where
  modified : Nat
  names : List Str
  deriving DecidableEq, Repr

/-- `HashMap::insert`: overwrite the entry for `key`, else append it. -/
def upsert (cache : List (Str × CacheEntryM)) (key : Str) (v : CacheEntryM) :
    List (Str × CacheEntryM) :=
  if (cache.map (·.1)).contains key then
    cache.map fun kv => if kv.1 == key then (key, v) else kv
  else cache ++ [(key, v)]

/-- The per-file cache consultation of `build_font_index`
(main.rs:546-574): reuse a cache entry only when it exists and the
stored modification time equals the current one; otherwise re-parse and
overwrite the entry with `(mtime.unwrap_or(0), fresh names)`. -/
def cacheResolve (useCache : Bool) (mtime : Str → Option Nat)
    (parseNames : Str → List Str) (cache : List (Str × CacheEntryM)) (path : Str) :
    List Str × List (Str × CacheEntryM) :=
  if useCache then
    match List.lookup path cache with
    | some e =>
      if mtime path = some e.modified then (e.names, cache)
      else
        let ns := parseNames path
        (ns, upsert cache path ⟨(mtime path).getD 0, ns⟩)
    | none =>
      let ns := parseNames path
      (ns, upsert cache path ⟨(mtime path).getD 0, ns⟩)
  else (parseNames path, cache)

/-- `HashMap::entry(key).or_default().push(path)` (main.rs:577). -/
def indexAppend (idx : List (Str × List Str)) (key : Str) (path : Str) :
    List (Str × List Str) :=
  if (idx.map (·.1)).contains key then
    idx.map fun kv => if kv.1 == key then (kv.1, kv.2 ++ [path]) else kv
  else idx ++ [(key, [path])]

/-- `build_font_index` (main.rs:538): fold over the font files,
resolving names through the cache and inserting each lower-cased name
into the index; returns the index and the final cache. -/
def build_font_index (fontFiles : List Str) (useCache : Bool)
    (mtime : Str → Option Nat) (parseNames : Str → List Str)
    (cache : List (Str × CacheEntryM)) :
    List (Str × List Str) × List (Str × CacheEntryM) :=
  fontFiles.foldl
    (fun acc path =>
      let r := cacheResolve useCache mtime parseNames acc.2 path
      (r.1.foldl (fun idx name => indexAppend idx (toLowerL name) path) acc.1, r.2))
    ([], cache)

/-! ### Spec-side definitions

These follow the wording of the specification/claims, for comparison
with the definitions above that were translated from the source. -/

/-- Suffix of `s` after its `k`-th comma (counting from 1); empty when
`s` has fewer than `k` commas.  `afterCommas 0 s = s`. -/
def afterCommas : Nat → Str → Str
  | 0, s => s
  | _ + 1, [] => []
  | k + 1, c :: t => if c = ',' then afterCommas k t else afterCommas (k + 1) t

/-- Modelled from the claim's words (C1): "locate the text payload column
by counting only the first N-1 commas (N = the column index of `text`
recorded from the Format line) and taking everything after the last
counted comma". -/
def extract_event_text_claim (line : Str) (idx : Option Nat) : Option Str :=
  (dropBytes 9 line).map fun rest => afterCommas (idx.getD 9 - 1) (rustTrim rest)

/-! ### Helper lemmas -/

lemma eventScan_eq_afterCommas (s : Str) : ∀ index count : Nat, count ≤ index →
    eventScan index count s = afterCommas (index + 1 - count) s := by
  induction s with
  | nil =>
    intro index count h
    have hk : index + 1 - count = (index - count) + 1 := by omega
    simp [eventScan, hk, afterCommas]
  | cons c t ih =>
    intro index count h
    have hk : index + 1 - count = (index - count) + 1 := by omega
    by_cases hc : c = ','
    · subst hc
      by_cases he : count = index
      · subst he
        simp [eventScan, hk, afterCommas]
      · have hlt : count < index := lt_of_le_of_ne h he
        rw [show eventScan index count (',' :: t) = eventScan index (count + 1) t by
          simp [eventScan, he]]
        rw [ih index (count + 1) (by omega), hk]
        simp only [afterCommas, if_pos rfl]
        congr 1
        omega
    · rw [show eventScan index count (c :: t) = eventScan index count t by
        simp [eventScan, hc]]
      rw [ih index count h, hk]
      simp [afterCommas, hc]

lemma dropWhile_eq_self_of_head (p : Char → Bool) (l : Str)
    (h : ∀ c, l.head? = some c → p c = false) : l.dropWhile p = l := by
  cases l with
  | nil => rfl
  | cons a t => simp [List.dropWhile_cons, h a rfl]

/-! ### Claim theorems -/

/-- C1 (amended): a `Dialogue:`/`Comment:` line locates the payload by
scanning for the (N+1)-th comma, where N is the 0-based column index of
`text` recorded from the Format line (default 9), and takes everything
after that comma — the empty string when there are fewer commas; embedded
commas in the remainder are preserved.  The spec's concrete scenario
still yields the required-name set {"Comic Sans MS"}. -/
theorem event_text_rule_amended :
    (∀ (line : Str) (i : Option Nat),
      extract_event_text line i =
        (dropBytes 9 line).map fun rest => afterCommas (i.getD 9 + 1) (rustTrim rest)) ∧
    parse_ass_fonts (chars "[Events]\nFormat: Layer, Start, End, Style, Name, ... , Text\nDialogue: 0,0:00:00.00,0:00:05.00,Default,,0,0,0,,\x7b\\fn(Comic Sans MS)\x7dHello") =
      some [chars "Comic Sans MS"] := by
  constructor
  · intro line i
    unfold extract_event_text
    cases h : dropBytes 9 line with
    | none => rfl
    | some rest =>
      simp only [Option.map_some']
      congr 1
      simpa using eventScan_eq_afterCommas (rustTrim rest) (i.getD 9) 0 (Nat.zero_le _)
  · decide

/-- C1 (counterexample): the claim's counting rule — take everything
after the first N-1 commas (N = the recorded column index of `text`) —
disagrees with the code: with recorded index 1, the code returns the
suffix after the second comma, not the whole field.  On the code the
resulting name set is {"B"}; the claim's rule would also retain "A". -/
theorem event_text_rule_counterexample :
    extract_event_text (chars "dialogue: x,\x7b\\fn(A)\x7dm,\x7b\\fn(B)\x7dn") (some 1) ≠
      extract_event_text_claim (chars "dialogue: x,\x7b\\fn(A)\x7dm,\x7b\\fn(B)\x7dn") (some 1) ∧
    parse_ass_fonts (chars "[events]\nformat: layer, text\ndialogue: x,\x7b\\fn(A)\x7dm,\x7b\\fn(B)\x7dn") =
      some [chars "B"] := by decide

/-- C2: the claim is right (the spec demands that malformed lines never
abort processing) and the code is wrong: an Events-section line that is
exactly `comment:` is 8 bytes long, and `extract_event_text` slices
`line[9..]`, which panics in Rust.  In the model the panic is `none`. -/
theorem comment_line_panics :
    parse_ass_fonts (chars "[events]\ncomment:") = none ∧
    extract_event_text (chars "comment:") none = none := by decide

/-- C4 (counterexample): normalization is not idempotent: stripping the
leading `@` can expose leading whitespace, which only a second
normalization removes: `normalize("@ x") = " x"` but
`normalize(" x") = "x" ≠ " x"`. -/
theorem normalize_idem_counterexample :
    normalize_font_name (chars "@ x") = some (chars " x") ∧
    normalize_font_name (chars " x") ≠ some (chars " x") := by decide

/-- C4 (amended): normalization trims whitespace, strips leading and
trailing NULs and one leading `@`, and discards empty results; it is
idempotent provided the normalized output does not begin with `@`,
whitespace or NUL and does not end with whitespace or NUL (stripping the
`@` flag may expose such characters, in which case a second
normalization differs). -/
theorem normalize_idem_amended (s t : Str)
    (h : normalize_font_name s = some t)
    (h1 : t.head?.all (fun c => !rustIsWhitespace c && c != Char.ofNat 0 && c != '@') = true)
    (h2 : t.getLast?.all (fun c => !rustIsWhitespace c && c != Char.ofNat 0) = true) :
    normalize_font_name t = some t := by
  have hne : t ≠ [] := by
    simp only [normalize_font_name] at h
    split at h
    · split at h
      · simp at h
      · rename_i hemp
        have heq := Option.some.inj h
        subst heq
        simpa using hemp
    · split at h
      · simp at h
      · rename_i hemp
        have heq := Option.some.inj h
        subst heq
        simpa using hemp
  have hhead : ∀ c, t.head? = some c →
      rustIsWhitespace c = false ∧ c ≠ Char.ofNat 0 ∧ c ≠ '@' := by
    intro c hc
    rw [hc] at h1
    simp [Option.all] at h1
    exact ⟨h1.1.1, h1.1.2, h1.2⟩
  have hlast : ∀ c, t.getLast? = some c →
      rustIsWhitespace c = false ∧ c ≠ Char.ofNat 0 := by
    intro c hc
    rw [hc] at h2
    simp [Option.all] at h2
    exact h2
  have htrim : rustTrim t = t := by
    unfold rustTrim
    rw [dropWhile_eq_self_of_head _ t (fun c hc => (hhead c hc).1)]
    rw [dropWhile_eq_self_of_head _ t.reverse (fun c hc => by
      rw [List.head?_reverse] at hc
      exact (hlast c hc).1)]
    exact List.reverse_reverse t
  have hnull : trimCharL (Char.ofNat 0) t = t := by
    unfold trimCharL
    rw [dropWhile_eq_self_of_head _ t (fun c hc => by
      simp only [decide_eq_false_iff_not]
      exact (hhead c hc).2.1)]
    rw [dropWhile_eq_self_of_head _ t.reverse (fun c hc => by
      rw [List.head?_reverse] at hc
      simp only [decide_eq_false_iff_not]
      exact (hlast c hc).2)]
    exact List.reverse_reverse t
  simp only [normalize_font_name, htrim, hnull]
  cases t with
  | nil => exact absurd rfl hne
  | cons a t' =>
    have ha : a ≠ '@' := (hhead a rfl).2.2
    simp [ha]

/-- C4 witness. -/
theorem normalize_idem_witness :
    normalize_font_name (chars "Arial") = some (chars "Arial") :=
  normalize_idem_amended (chars "Arial") (chars "Arial") (by decide) (by decide) (by decide)

/-- C8: a Styles-section Format line sets the active column to the first
field whose trimmed label equals `fontname` case-insensitively (labels
are lower-cased when parsed), Style lines extract that comma-separated
field (column 1 when no Format line recorded an index), and the spec's
scenario yields {"Verdana"}. -/
theorem styles_format_extraction :
    parse_ass_fonts (chars "[V4+ Styles]\nFormat: Name, Fontname, ...\nStyle: Default,Verdana,...") =
      some [chars "Verdana"] ∧
    parse_ass_fonts (chars "[styles]\nformat: name, FONTNAME\nstyle: x,Foo") =
      some [chars "Foo"] ∧
    parse_ass_fonts (chars "[styles]\nstyle: x,Bar,z") = some [chars "Bar"] ∧
    ∀ line : Str, parse_style_font line none = parse_style_font line (some 1) :=
  ⟨by decide, by decide, by decide, fun _ => rfl⟩

/-- C10: a header line `[X]` sets the section to the lower-cased `X` and
leaves the recorded column indices (and collected fonts) untouched;
lines are treated as Styles/Events by substring containment of
"styles"/"events" in the lower-cased section name ("[V4+ Styles]" and
"[custom styles block]" both enter Styles, "[styling]" does not), and a
column index recorded in one section survives section changes. -/
theorem section_substring_recognition :
    (∀ (st : AssState) (x : Str),
      assStep st (chars "[" ++ x ++ chars "]") =
        some ⟨toLowerL x, st.styleIdx, st.eventIdx, st.fonts⟩) ∧
    parse_ass_fonts (chars "[V4+ Styles]\nStyle: a,Foo") = some [chars "Foo"] ∧
    parse_ass_fonts (chars "[custom styles block]\nStyle: a,Bar") = some [chars "Bar"] ∧
    parse_ass_fonts (chars "[styling]\nStyle: a,Baz") = some [] ∧
    parse_ass_fonts (chars "[v4 styles]\nFormat: Fontname\n[events]\n[other styles]\nStyle: Qux,Nope") =
      some [chars "Qux"] ∧
    parse_ass_fonts (chars "[events]\nFormat: Text\n[styles]\n[more events]\nDialogue: a,\x7b\\fn(F)\x7dx") =
      some [chars "F"] := by
  refine ⟨?_, by decide, by decide, by decide, by decide, by decide⟩
  intro st x
  have hline : chars "[" ++ x ++ chars "]" = '[' :: (x ++ [']']) := by
    simp [chars]
  have hlast : ('[' :: (x ++ [']'])).getLast? = some ']' := by
    rw [show '[' :: (x ++ [']']) = ('[' :: x) ++ [']'] by simp]
    exact List.getLast?_concat _
  have htrim : rustTrim ('[' :: (x ++ [']'])) = '[' :: (x ++ [']']) := by
    unfold rustTrim
    rw [dropWhile_eq_self_of_head _ ('[' :: (x ++ [']'])) (fun c hc => by
      have hc2 : '[' = c := by simpa using hc
      subst hc2
      decide)]
    rw [dropWhile_eq_self_of_head _ ('[' :: (x ++ [']'])).reverse (fun c hc => by
      rw [List.head?_reverse, hlast] at hc
      have hc2 := Option.some.inj hc
      subst hc2
      decide)]
    exact List.reverse_reverse _
  rw [hline]
  unfold assStep
  dsimp only
  rw [htrim]
  have hcond : ('[' :: (x ++ [']'])).head? = some '[' ∧
      ('[' :: (x ++ [']'])).getLast? = some ']' := ⟨rfl, hlast⟩
  rw [if_pos hcond]
  simp [List.dropLast_concat]

lemma processOne_reg_mem (index : List (Str × List Str)) (act : Str → Bool)
    (st : ProcState) (f path : Str)
    (h : path ∈ (processOne index act st f).reg) : path ∈ st.reg ∨ act path = true := by
  simp only [processOne] at h
  split at h
  · split at h
    · split at h
      · exact Or.inl h
      · split at h
        · rcases List.mem_cons.mp h with h1 | h1
          · subst h1
            rename_i hact
            exact Or.inr hact
          · exact Or.inl h1
        · exact Or.inl h
    · exact Or.inl h
  · exact Or.inl h

lemma process_drop_worker_reg_mem (index : List (Str × List Str)) (act : Str → Bool)
    (fonts : List Str) : ∀ (st : ProcState) (path : Str),
    path ∈ (process_drop_worker index act fonts st).reg →
    path ∈ st.reg ∨ act path = true := by
  induction fonts with
  | nil => exact fun st path h => Or.inl h
  | cons f fs ih =>
    intro st path h
    have h2 := ih (processOne index act st f) path h
    rcases h2 with h2 | h2
    · exact processOne_reg_mem index act st f path h2
    · exact Or.inr h2

/-- C5: (a) a required name whose first index candidate is already in the
registry is classified "duplicate": no activation call is made and the
registry and every other counter are unchanged; (b) the registry never
contains a path that was not successfully activated (any new member has
`act = true`); (c) processing the same required font twice in one batch
with a fresh, activatable candidate yields exactly one "loaded" and one
"duplicate" outcome, a single activation call, and the path registered
once. -/
theorem at_most_once_activation :
    (∀ (index : List (Str × List Str)) (act : Str → Bool) (st : ProcState)
       (font : Str) (files : List Str) (path : Str),
      List.lookup (toLowerL font) index = some files → files.head? = some path →
      path ∈ st.reg →
      (processOne index act st font).reg = st.reg ∧
      (processOne index act st font).calls = st.calls ∧
      (processOne index act st font).dups = st.dups + 1 ∧
      (processOne index act st font).loaded = st.loaded ∧
      (processOne index act st font).failed = st.failed ∧
      (processOne index act st font).missing = st.missing) ∧
    (∀ (index : List (Str × List Str)) (act : Str → Bool) (fonts : List Str)
       (st : ProcState) (path : Str),
      path ∈ (process_drop_worker index act fonts st).reg →
      path ∈ st.reg ∨ act path = true) ∧
    (∀ (index : List (Str × List Str)) (act : Str → Bool) (st : ProcState)
       (font : Str) (files : List Str) (path : Str),
      List.lookup (toLowerL font) index = some files → files.head? = some path →
      path ∉ st.reg → act path = true →
      (process_drop_worker index act [font, font] st).loaded = st.loaded + 1 ∧
      (process_drop_worker index act [font, font] st).dups = st.dups + 1 ∧
      (process_drop_worker index act [font, font] st).calls = st.calls ++ [path] ∧
      (process_drop_worker index act [font, font] st).reg = path :: st.reg) := by
  refine ⟨?_, fun index act fonts st path => process_drop_worker_reg_mem index act fonts st path, ?_⟩
  · intro index act st font files path h1 h2 h3
    cases files with
    | nil => simp at h2
    | cons f fs =>
      rw [show f = path from by simpa using h2] at h1
      simp [processOne, h1, h3]
  · intro index act st font files path h1 h2 h3 h4
    cases files with
    | nil => simp at h2
    | cons f fs =>
      rw [show f = path from by simpa using h2] at h1
      have step1 : processOne index act st font =
          { st with reg := path :: st.reg, loaded := st.loaded + 1,
                    logs := st.logs ++ [chars "[ok] " ++ font ++ chars " > " ++ path],
                    calls := st.calls ++ [path] } := by
        simp [processOne, h1, h3, h4]
      have step2 : process_drop_worker index act [font, font] st =
          processOne index act (processOne index act st font) font := rfl
      rw [step2, step1]
      simp [processOne, h1]

/-- C5 witness. -/
theorem at_most_once_activation_witness :
    ((processOne [(chars "a", [chars "p"])] (fun _ => true)
        ⟨[chars "p"], 0, 0, 0, 0, [], []⟩ (chars "a")).reg = [chars "p"] ∧
      (processOne [(chars "a", [chars "p"])] (fun _ => true)
        ⟨[chars "p"], 0, 0, 0, 0, [], []⟩ (chars "a")).calls = [] ∧
      (processOne [(chars "a", [chars "p"])] (fun _ => true)
        ⟨[chars "p"], 0, 0, 0, 0, [], []⟩ (chars "a")).dups = 0 + 1 ∧
      (processOne [(chars "a", [chars "p"])] (fun _ => true)
        ⟨[chars "p"], 0, 0, 0, 0, [], []⟩ (chars "a")).loaded = 0 ∧
      (processOne [(chars "a", [chars "p"])] (fun _ => true)
        ⟨[chars "p"], 0, 0, 0, 0, [], []⟩ (chars "a")).failed = 0 ∧
      (processOne [(chars "a", [chars "p"])] (fun _ => true)
        ⟨[chars "p"], 0, 0, 0, 0, [], []⟩ (chars "a")).missing = 0) ∧
    (chars "p" ∈ (process_drop_worker [(chars "a", [chars "p"])] (fun _ => true)
        [chars "a"] ⟨[], 0, 0, 0, 0, [], []⟩).reg →
      chars "p" ∈ ([] : List Str) ∨ (fun (_ : Str) => true) (chars "p") = true) ∧
    ((process_drop_worker [(chars "a", [chars "p"])] (fun _ => true)
        [chars "a", chars "a"] ⟨[], 0, 0, 0, 0, [], []⟩).loaded = 0 + 1 ∧
      (process_drop_worker [(chars "a", [chars "p"])] (fun _ => true)
        [chars "a", chars "a"] ⟨[], 0, 0, 0, 0, [], []⟩).dups = 0 + 1 ∧
      (process_drop_worker [(chars "a", [chars "p"])] (fun _ => true)
        [chars "a", chars "a"] ⟨[], 0, 0, 0, 0, [], []⟩).calls = [] ++ [chars "p"] ∧
      (process_drop_worker [(chars "a", [chars "p"])] (fun _ => true)
        [chars "a", chars "a"] ⟨[], 0, 0, 0, 0, [], []⟩).reg = chars "p" :: []) :=
  ⟨at_most_once_activation.1 [(chars "a", [chars "p"])] (fun _ => true)
      ⟨[chars "p"], 0, 0, 0, 0, [], []⟩ (chars "a") [chars "p"] (chars "p")
      (by decide) (by decide) (by decide),
   at_most_once_activation.2.1 [(chars "a", [chars "p"])] (fun _ => true) [chars "a"]
      ⟨[], 0, 0, 0, 0, [], []⟩ (chars "p"),
   at_most_once_activation.2.2 [(chars "a", [chars "p"])] (fun _ => true)
      ⟨[], 0, 0, 0, 0, [], []⟩ (chars "a") [chars "p"] (chars "p")
      (by decide) (by decide) (by decide) (by decide)⟩

lemma processOne_counts (index : List (Str × List Str)) (act : Str → Bool)
    (st : ProcState) (f : Str) :
    (processOne index act st f).loaded + (processOne index act st f).failed +
      (processOne index act st f).missing + (processOne index act st f).dups =
      st.loaded + st.failed + st.missing + st.dups + 1 ∧
    (processOne index act st f).logs.length = st.logs.length + 1 := by
  simp only [processOne]
  split
  · split
    · split
      · (simp; omega)
      · split
        · (simp; omega)
        · (simp; omega)
    · (simp; omega)
  · (simp; omega)

/-- C9: each required name receives exactly one classification and one
log line: after the classification loop the four counters have grown by
exactly the number of (distinct) required names and the log by one line
per name. -/
theorem counters_partition (index : List (Str × List Str)) (act : Str → Bool)
    (fonts : List Str) : ∀ st : ProcState, fonts.Nodup →
    (process_drop_worker index act fonts st).loaded +
      (process_drop_worker index act fonts st).failed +
      (process_drop_worker index act fonts st).missing +
      (process_drop_worker index act fonts st).dups =
      st.loaded + st.failed + st.missing + st.dups + fonts.length ∧
    (process_drop_worker index act fonts st).logs.length =
      st.logs.length + fonts.length := by
  induction fonts with
  | nil => exact fun st _ => ⟨rfl, rfl⟩
  | cons f fs ih =>
    intro st hnd
    have h1 := processOne_counts index act st f
    have h2 := ih (processOne index act st f) (List.Nodup.of_cons hnd)
    refine ⟨?_, ?_⟩
    · rw [show process_drop_worker index act (f :: fs) st =
        process_drop_worker index act fs (processOne index act st f) from rfl]
      rw [h2.1, h1.1]
      simp [List.length_cons]
      omega
    · rw [show process_drop_worker index act (f :: fs) st =
        process_drop_worker index act fs (processOne index act st f) from rfl]
      rw [h2.2, h1.2]
      simp [List.length_cons]
      omega

/-- C9 witness. -/
theorem counters_partition_witness :
    (process_drop_worker [] (fun _ => true) [chars "a"] ⟨[], 0, 0, 0, 0, [], []⟩).loaded +
      (process_drop_worker [] (fun _ => true) [chars "a"] ⟨[], 0, 0, 0, 0, [], []⟩).failed +
      (process_drop_worker [] (fun _ => true) [chars "a"] ⟨[], 0, 0, 0, 0, [], []⟩).missing +
      (process_drop_worker [] (fun _ => true) [chars "a"] ⟨[], 0, 0, 0, 0, [], []⟩).dups =
      0 + 0 + 0 + 0 + [chars "a"].length ∧
    (process_drop_worker [] (fun _ => true) [chars "a"] ⟨[], 0, 0, 0, 0, [], []⟩).logs.length =
      ([] : List Str).length + [chars "a"].length :=
  counters_partition [] (fun _ => true) [chars "a"] ⟨[], 0, 0, 0, 0, [], []⟩ (by decide)

lemma unloadScan_spec (deact : Str → Bool) (reg : List Str) :
    ∀ acc : Nat × List Str,
    reg.foldl (fun acc p => if deact p then (acc.1 + 1, acc.2 ++ [p]) else acc) acc =
      (acc.1 + (reg.filter deact).length, acc.2 ++ reg.filter deact) := by
  induction reg with
  | nil => intro acc; simp
  | cons p t ih =>
    intro acc
    by_cases hp : deact p
    · simp only [List.foldl_cons, if_pos hp, ih, List.filter_cons, hp]
      simp
      omega
    · simp only [List.foldl_cons, if_neg hp, ih, List.filter_cons, hp]
      simp

/-- C7: the unload operation attempts exactly one deactivation per
registry member, removes from the registry exactly the paths whose
deactivation succeeded (failures remain), reports the number of
successes, and when every deactivation succeeds the registry ends empty. -/
theorem unload_complete (deact : Str → Bool) (reg : List Str) :
    (unload_fonts_worker deact reg).attempts = reg ∧
    (unload_fonts_worker deact reg).count = (reg.filter deact).length ∧
    (unload_fonts_worker deact reg).reg = reg.filter (fun p => !(deact p)) ∧
    ((∀ p ∈ reg, deact p = true) → (unload_fonts_worker deact reg).reg = []) := by
  have hscan := unloadScan_spec deact reg (0, [])
  have hco : unload_fonts_worker deact reg =
      { count := (reg.filter deact).length,
        reg := reg.filter (fun p => !((reg.filter deact).contains p)),
        attempts := reg } := by
    unfold unload_fonts_worker unloadScan
    rw [hscan]
    simp
  have hreg : reg.filter (fun p => !((reg.filter deact).contains p)) =
      reg.filter (fun p => !(deact p)) := by
    apply List.filter_congr
    intro p hp
    by_cases hd : deact p
    · have hmem : p ∈ reg.filter deact := List.mem_filter.mpr ⟨hp, by simpa using hd⟩
      simp [List.contains, hmem, hd]
    · have hmem : p ∉ reg.filter deact := fun hm => hd (by simpa using List.of_mem_filter hm)
      simp [List.contains, hmem, hd]
  refine ⟨by rw [hco], by rw [hco], by rw [hco]; exact hreg, ?_⟩
  intro hall
  rw [hco, hreg]
  refine List.filter_eq_nil_iff.mpr ?_
  intro p hp
  simp [hall p hp]

/-- C7 witness. -/
theorem unload_complete_witness :
    (unload_fonts_worker (fun _ => true) [chars "p", chars "q"]).attempts =
      [chars "p", chars "q"] ∧
    (unload_fonts_worker (fun _ => true) [chars "p", chars "q"]).count =
      ([chars "p", chars "q"].filter (fun _ => true)).length ∧
    (unload_fonts_worker (fun _ => true) [chars "p", chars "q"]).reg =
      [chars "p", chars "q"].filter (fun p => !((fun (_ : Str) => true) p)) ∧
    ((∀ p ∈ [chars "p", chars "q"], (fun (_ : Str) => true) p = true) →
      (unload_fonts_worker (fun _ => true) [chars "p", chars "q"]).reg = []) :=
  unload_complete (fun _ => true) [chars "p", chars "q"]

/-- C6: with cache use enabled, a cache entry's names are reused iff the
entry exists and the file's current modification time equals the stored
one; in every other case (stale time or missing entry) the binary is
re-parsed and the entry overwritten with the fresh (mtime, names) pair,
also at the level of `build_font_index`, so stale names are never
reused. -/
theorem cache_invalidation :
    (∀ (mtime : Str → Option Nat) (pn : Str → List Str)
       (cache : List (Str × CacheEntryM)) (path : Str) (e : CacheEntryM),
      List.lookup path cache = some e → mtime path = some e.modified →
      cacheResolve true mtime pn cache path = (e.names, cache)) ∧
    (∀ (mtime : Str → Option Nat) (pn : Str → List Str)
       (cache : List (Str × CacheEntryM)) (path : Str) (e : CacheEntryM),
      List.lookup path cache = some e → mtime path ≠ some e.modified →
      cacheResolve true mtime pn cache path =
        (pn path, upsert cache path ⟨(mtime path).getD 0, pn path⟩)) ∧
    (∀ (mtime : Str → Option Nat) (pn : Str → List Str)
       (cache : List (Str × CacheEntryM)) (path : Str),
      List.lookup path cache = none →
      cacheResolve true mtime pn cache path =
        (pn path, upsert cache path ⟨(mtime path).getD 0, pn path⟩)) ∧
    (∀ (mtime : Str → Option Nat) (pn : Str → List Str)
       (cache : List (Str × CacheEntryM)) (path : Str) (e : CacheEntryM),
      List.lookup path cache = some e → mtime path ≠ some e.modified →
      (build_font_index [path] true mtime pn cache).2 =
        upsert cache path ⟨(mtime path).getD 0, pn path⟩) := by
  refine ⟨?_, ?_, ?_, ?_⟩
  · intro mtime pn cache path e h1 h2
    simp [cacheResolve, h1, h2]
  · intro mtime pn cache path e h1 h2
    simp [cacheResolve, h1, h2]
  · intro mtime pn cache path h1
    simp [cacheResolve, h1]
  · intro mtime pn cache path e h1 h2
    simp [build_font_index, cacheResolve, h1, h2]

/-- C6 witness. -/
theorem cache_invalidation_witness :
    (cacheResolve true (fun _ => some 5) (fun _ => [chars "x"])
        [(chars "p", ⟨5, [chars "n"]⟩)] (chars "p") =
      ([chars "n"], [(chars "p", ⟨5, [chars "n"]⟩)])) ∧
    (cacheResolve true (fun _ => some 6) (fun _ => [chars "x"])
        [(chars "p", ⟨5, [chars "n"]⟩)] (chars "p") =
      ([chars "x"], upsert [(chars "p", ⟨5, [chars "n"]⟩)] (chars "p")
        ⟨((fun (_ : Str) => some 6) (chars "p")).getD 0, [chars "x"]⟩)) ∧
    (cacheResolve true (fun _ => some 6) (fun _ => [chars "x"]) [] (chars "p") =
      ([chars "x"], upsert [] (chars "p")
        ⟨((fun (_ : Str) => some 6) (chars "p")).getD 0, [chars "x"]⟩)) ∧
    ((build_font_index [chars "p"] true (fun _ => some 6) (fun _ => [chars "x"])
        [(chars "p", ⟨5, [chars "n"]⟩)]).2 =
      upsert [(chars "p", ⟨5, [chars "n"]⟩)] (chars "p")
        ⟨((fun (_ : Str) => some 6) (chars "p")).getD 0, [chars "x"]⟩) :=
  ⟨cache_invalidation.1 _ _ _ _ ⟨5, [chars "n"]⟩ (by decide) (by decide),
   cache_invalidation.2.1 _ _ _ _ ⟨5, [chars "n"]⟩ (by decide) (by decide),
   cache_invalidation.2.2.1 _ _ _ _ (by decide),
   cache_invalidation.2.2.2 _ _ _ _ ⟨5, [chars "n"]⟩ (by decide) (by decide)⟩

lemma byteSliceB_isSome (data : List Nat) (a b : Nat) (h1 : a ≤ b)
    (h2 : b ≤ data.length) : (byteSliceB data a b).isSome := by
  simp [byteSliceB, h1, h2]

lemma findNameTable_isSome (data : List Nat) (ts : Nat) :
    ∀ n i, (findNameTable data ts i n).isSome := by
  intro n
  induction n with
  | zero => intro i; simp [findNameTable]
  | succ n ih =>
    intro i
    simp only [findNameTable]
    split
    · simp
    · rename_i hlen
      cases hb : byteSliceB data (ts + i * 16) (ts + i * 16 + 4) with
      | none =>
        have hs := byteSliceB_isSome data (ts + i * 16) (ts + i * 16 + 4)
          (by omega) (by omega)
        rw [hb] at hs
        simp at hs
      | some tag =>
        dsimp only
        split
        · simp
        · exact ih (i + 1)

lemma collectNames_isSome (data : List Nat) (tp so rs : Nat) :
    ∀ n i acc, (collectNames data tp so rs i n acc).isSome := by
  intro n
  induction n with
  | zero => intro i acc; simp [collectNames]
  | succ n ih =>
    intro i acc
    simp only [collectNames]
    split
    · simp
    · rename_i hlen
      split
      · exact ih (i + 1) acc
      · split
        · exact ih (i + 1) acc
        · split
          · exact ih (i + 1) acc
          · rename_i hplat hname hbound
            cases hb : byteSliceB data
                (tp + so + (read_u16_be data (rs + i * 12 + 10)).getD 0)
                (tp + so + (read_u16_be data (rs + i * 12 + 10)).getD 0 +
                  (read_u16_be data (rs + i * 12 + 8)).getD 0) with
            | none =>
              have hs := byteSliceB_isSome data
                  (tp + so + (read_u16_be data (rs + i * 12 + 10)).getD 0)
                  (tp + so + (read_u16_be data (rs + i * 12 + 10)).getD 0 +
                    (read_u16_be data (rs + i * 12 + 8)).getD 0)
                  (by omega) (by omega)
              rw [hb] at hs
              simp at hs
            | some bytes =>
              dsimp only
              split
              · exact ih (i + 1) _
              · exact ih (i + 1) acc

lemma parse_otf_names_at_isSome (data : List Nat) (offset : Nat) :
    (parse_otf_names_at data offset).isSome := by
  unfold parse_otf_names_at
  split
  · simp
  · dsimp only
    split
    · rename_i heq
      have hs := findNameTable_isSome data (offset + 12)
        ((read_u16_be data (offset + 4)).getD 0) 0
      rw [heq] at hs
      simp at hs
    · simp
    · split
      · simp
      · exact collectNames_isSome data _ _ _ _ 0 []

lemma foldlM_option_isSome {α β : Type} (f : β → α → Option β)
    (hf : ∀ b a, (f b a).isSome) : ∀ (l : List α) (b : β), (l.foldlM f b).isSome := by
  intro l
  induction l with
  | nil => intro b; simp
  | cons a t ih =>
    intro b
    rw [List.foldlM_cons]
    cases hb : f b a with
    | none =>
      have := hf b a
      rw [hb] at this
      simp at this
    | some b2 => simpa using ih b2

/-- C3: the font name-table reader is total: `parse_otf_names_at` and
`parse_font_names_from_bytes` never reach an unchecked byte access
(modelled: they never return the `none` that stands for a Rust panic) on
any input buffer, and a font-candidate buffer with no `name` table
yields the empty name set rather than an error. -/
theorem font_reader_total :
    (∀ (data : List Nat) (offset : Nat), (parse_otf_names_at data offset).isSome = true) ∧
    (∀ data : List Nat, (parse_font_names_from_bytes data).isSome = true) ∧
    parse_font_names_from_bytes [0, 1, 0, 0, 0, 0, 0, 0, 0, 0, 0, 0] = some [] := by
  refine ⟨parse_otf_names_at_isSome, ?_, by decide⟩
  intro data
  unfold parse_font_names_from_bytes
  split
  · simp
  · rename_i hlen
    cases hb : byteSliceB data 0 4 with
    | none =>
      have hs := byteSliceB_isSome data 0 4 (by omega) (by omega)
      rw [hb] at hs
      simp at hs
    | some tag =>
      dsimp only
      split
      · apply foldlM_option_isSome
        intro b a
        have hs := parse_otf_names_at_isSome data a
        cases hp : parse_otf_names_at data a with
        | none => rw [hp] at hs; simp at hs
        | some ns => simp [hp]
      · exact parse_otf_names_at_isSome data 0

example : parse_font_names_from_bytes [0, 1, 0, 0, 0, 0, 0, 0, 0, 0, 0, 0] = some [] := by decide

example : parse_ass_fonts (chars "[Events]\nFormat: Layer, Start, End, Style, Name, MarginL, MarginR, MarginV, Effect, Text\nDialogue: 0,0:00:00.00,0:00:05.00,Default,,0,0,0,,\x7b\\fn(Comic Sans MS)\x7dHello") = some [] := by decide

example : parse_ass_fonts (chars "[Events]\nFormat: Layer, Start, End, Style, Name, ... , Text\nDialogue: 0,0:00:00.00,0:00:05.00,Default,,0,0,0,,\x7b\\fn(Comic Sans MS)\x7dHello") = some [chars "Comic Sans MS"] := by decide

example : parse_ass_fonts (chars "[events]\ncomment:") = none := by decide

example : parse_ass_fonts (chars "[V4+ Styles]\nFormat: Name, Fontname, Fontsize\nStyle: Default,Verdana,20") = some [chars "Verdana"] := by decide
